import Mathlib

/-!
Verification of the phone-number → OKVED classification pipeline
(`src/main.py`).  Python strings are embedded as `List Char`; the digit
strip `re.sub(r"\D", "", s)` keeps exactly the decimal digit characters;
`str.startswith(p)` for a literal prefix `p` of length `k` is embedded as
`l.take k = p-chars`; `str.endswith(t)` as `List.isSuffixOf`.
-/

/-- Embedding of `re.sub(r"\D", "", s)`: keep only the decimal digits. -/
def stripNonDigits (s : List Char) : List Char :=
  s.filter Char.isDigit

/-- Embedding of the frozen dataclass `NormalizeResult(ok, value, error)`. -/
structure NormalizeResult where
  ok : Bool
  value : Option (List Char)
  error : Option (List Char)
deriving DecidableEq, Repr

/-- Error message of the unsupported-format branch (line 61 of the source). -/
def errUnsupportedFormat : List Char :=
  "Неподдерживаемый формат мобильного номера телефона".data

/-- Error message of the defensive length check (line 64 of the source). -/
def errLengthMismatch : List Char :=
  "Номер не может быть приведён к формату +79XXXXXXXXX".data

/-- Error message of the `79`-prefix validation (line 68 of the source). -/
def errNotRussianMobile : List Char :=
  "Не РФ мобильный номер телефона (+79XXXXXXXXX)".data

/-- Embedding of lines 63–71 of `normalise_phone_number`, the part after
the format-acceptance branches: the defensive length check, the `79`
prefix validation, and the final `+`-prefixed success value. -/
def finishNorm (digits : List Char) : NormalizeResult :=
  if digits.length ≠ 11 then
    ⟨false, none, some errLengthMismatch⟩
  else if ¬ (digits.take 2 = ['7', '9']) then
    ⟨false, none, some errNotRussianMobile⟩
  else
    ⟨true, some ('+' :: digits), none⟩

/-- Embedding of `normalise_phone_number` (lines 44–71): strip non-digits,
then the three format-acceptance branches (`8…` of length 11 gets its head
replaced by `7`; `7…` of length 11 is kept; `9…` of length 10 gets `7`
prepended), else the unsupported-format failure; accepted shapes continue
with `finishNorm`. -/
def normalise_phone_number (phone_number : List Char) : NormalizeResult :=
  let digits := stripNonDigits phone_number
  if digits.length = 11 ∧ digits.take 1 = ['8'] then
    finishNorm ('7' :: digits.tail)
  else if digits.length = 11 ∧ digits.take 1 = ['7'] then
    finishNorm digits
  else if digits.length = 10 ∧ digits.take 1 = ['9'] then
    finishNorm ('7' :: digits)
  else
    ⟨false, none, some errUnsupportedFormat⟩

/-- Embedding of the frozen dataclass `OkvedItem(code, name, code_digits)`. -/
structure OkvedItem where
  code : List Char
  name : List Char
  code_digits : List Char
deriving DecidableEq, Repr

/-- Loop body of `find_match` (lines 107–112): if the item's digit code is
a suffix of the phone digits and strictly longer than the best length seen
so far, it becomes the new best match. -/
def find_step (phone : List Char) (acc : Option OkvedItem × Nat)
    (item : OkvedItem) : Option OkvedItem × Nat :=
  if item.code_digits.isSuffixOf phone then
    if acc.2 < item.code_digits.length then
      (some item, item.code_digits.length)
    else acc
  else acc

/-- Embedding of `find_match` (lines 97–114): scan the items with
`find_step`, starting from `best_match = None`, `best_length = 0`. -/
def find_match (phone : List Char) (okved_items : List OkvedItem) :
    Option OkvedItem × Nat :=
  okved_items.foldl (find_step phone) (none, 0)

/-- Loop body of Python's `min(okved_items, key=lambda x: len(x.code_digits))`:
the running minimum is replaced only on a strictly smaller key, so the
first item attaining the minimum is kept. -/
def min_step (best item : OkvedItem) : OkvedItem :=
  if item.code_digits.length < best.code_digits.length then item else best

/-- Embedding of `fallback_okved` (lines 116–122).  Python's `min` raises
`ValueError` on an empty sequence; that fallible behaviour is embedded as
`Option`, with `none` for the empty-input failure. -/
def fallback_okved (okved_items : List OkvedItem) : Option OkvedItem :=
  match okved_items with
  | [] => none
  | x :: xs => some (xs.foldl min_step x)

/-- Embedding of the JSON tree nodes consumed by `parse_json`: a node is a
dict with optional `code` and `name` strings and a `items` list of child
nodes (`node.get("items", [])`, missing list embedded as `[]`). -/
inductive TreeNode where
  | mk (code : Option (List Char)) (name : Option (List Char))
      (items : List TreeNode)

/-- Field accessor for the optional `code` entry of a node. -/
def TreeNode.code : TreeNode → Option (List Char)
  | .mk c _ _ => c

/-- Field accessor for the optional `name` entry of a node. -/
def TreeNode.name : TreeNode → Option (List Char)
  | .mk _ n _ => n

/-- Field accessor for the `items` children list of a node. -/
def TreeNode.items : TreeNode → List TreeNode
  | .mk _ _ i => i

/-- Python truthiness of `node.get("code")` / `node.get("name")`: a missing
key (`None`) and the empty string are falsy, any other string is truthy. -/
def truthy : Option (List Char) → Bool
  | none => false
  | some s => ¬ s.isEmpty

mutual

/-- Embedding of the inner `walk` of `parse_json` (lines 81–91): append the
node's record when `code` and `name` are truthy and the stripped code is
non-empty, then recurse into the children.  The shared mutable `result`
list of the source is embedded as the returned list, in append order. -/
def walk : TreeNode → List OkvedItem
  | .mk code name items =>
    (if truthy code ∧ truthy name then
      let code_digits := stripNonDigits (code.getD [])
      if code_digits.isEmpty then []
      else [⟨code.getD [], name.getD [], code_digits⟩]
    else []) ++ walkList items

/-- Embedding of a `for` loop running `walk` over a list of nodes and
concatenating what each call appends to `result`. -/
def walkList : List TreeNode → List OkvedItem
  | [] => []
  | n :: ns => walk n ++ walkList ns

end

/-- Embedding of `parse_json` (lines 73–95): `walk` every root of the
forest in order, collecting the appended records. -/
def parse_json (data : List TreeNode) : List OkvedItem :=
  walkList data

mutual

/-- Pre-order listing of the nodes of a tree: the node itself, then its
children's subtrees depth-first, left to right. -/
def preorder : TreeNode → List TreeNode
  | .mk code name items => .mk code name items :: preorderForest items

/-- Pre-order listing of the nodes of a forest, root by root. -/
def preorderForest : List TreeNode → List TreeNode
  | [] => []
  | t :: ts => preorder t ++ preorderForest ts

end

/-- Modelled from the spec's per-node emission rule (§4.2): if both `code`
and `name` are present and non-empty, strip non-digits from `code` to get
`digits`; if `digits` is non-empty, emit the one record
`ClassificationRecord(code, name, digits)`; otherwise emit nothing. -/
def record_of_node (t : TreeNode) : List OkvedItem :=
  match t.code, t.name with
  | some c, some n =>
    if c ≠ [] ∧ n ≠ [] ∧ stripNonDigits c ≠ [] then
      [⟨c, n, stripNonDigits c⟩]
    else []
  | _, _ => []

/-- On an argument of length 11 the defensive length check of `finishNorm`
cannot fire: the result is a success or the `79`-validation failure. -/
theorem finishNorm_of_length (d : List Char) (h : d.length = 11) :
    (finishNorm d).ok = true ∨ (finishNorm d).error = some errNotRussianMobile := by
  unfold finishNorm
  rw [if_neg (by simp [h])]
  split
  · right; rfl
  · left; rfl

/-- C1, counterexample: the stripped digits of `"80001234567"` form an
11-character string starting with `8`, yet normalisation does not succeed
(the coerced number `70001234567` fails the `79` validation), refuting the
claim that every such input normalises successfully. -/
theorem normalise_from8_counterexample :
    (stripNonDigits ['8', '0', '0', '0', '1', '2', '3', '4', '5', '6', '7']).length = 11
    ∧ (stripNonDigits ['8', '0', '0', '0', '1', '2', '3', '4', '5', '6', '7']).take 1 = ['8']
    ∧ (normalise_phone_number ['8', '0', '0', '0', '1', '2', '3', '4', '5', '6', '7']).ok = false := by
  decide

/-- C1 (amended): for every raw input whose stripped digits form an
11-character string starting with `8` whose second character is `9`,
`normalise_phone_number` returns a success outcome whose value is `+7`
followed by the remaining 10 digits. -/
theorem normalise_from8_spec (s rest : List Char)
    (h : stripNonDigits s = '8' :: '9' :: rest) (hlen : rest.length = 9) :
    normalise_phone_number s = ⟨true, some ('+' :: '7' :: '9' :: rest), none⟩ := by
  simp [normalise_phone_number, h, hlen, finishNorm]

/-- Witness for the amended C1 at the concrete input `"89123456789"`. -/
theorem normalise_from8_spec_witness :
    normalise_phone_number ['8', '9', '1', '2', '3', '4', '5', '6', '7', '8', '9'] =
      ⟨true, some ('+' :: '7' :: '9' :: ['1', '2', '3', '4', '5', '6', '7', '8', '9']), none⟩ :=
  normalise_from8_spec _ ['1', '2', '3', '4', '5', '6', '7', '8', '9']
    (by decide) (by decide)

/-- C6, counterexample: `"+70123456789"` is `+` then `7` then 10 more
digits, yet normalisation fails on it (it does not start with `79`),
refuting idempotence as claimed for every `+7`-prefixed 11-digit value. -/
theorem normalise_idempotent_counterexample :
    (normalise_phone_number
      ('+' :: ['7', '0', '1', '2', '3', '4', '5', '6', '7', '8', '9'])).ok = false := by
  decide

/-- C6 (amended): normalisation is idempotent on its own successful
outputs: for every value of the form `+79` followed by 9 more digits —
the exact shape of every successful output — `normalise_phone_number`
returns a success outcome carrying that same value unchanged. -/
theorem normalise_idempotent (rest : List Char) (hlen : rest.length = 9)
    (hdig : ∀ c ∈ rest, c.isDigit = true) :
    normalise_phone_number ('+' :: '7' :: '9' :: rest) =
      ⟨true, some ('+' :: '7' :: '9' :: rest), none⟩ := by
  have hstrip : stripNonDigits ('+' :: '7' :: '9' :: rest) = '7' :: '9' :: rest := by
    unfold stripNonDigits
    rw [List.filter_cons_of_neg (by decide), List.filter_cons_of_pos (by decide),
      List.filter_cons_of_pos (by decide), List.filter_eq_self.mpr hdig]
  simp [normalise_phone_number, hstrip, hlen, finishNorm]

/-- Witness for the amended C6 at the concrete value `"+79123456789"`. -/
theorem normalise_idempotent_witness :
    normalise_phone_number ('+' :: '7' :: '9' :: ['1', '2', '3', '4', '5', '6', '7', '8', '9']) =
      ⟨true, some ('+' :: '7' :: '9' :: ['1', '2', '3', '4', '5', '6', '7', '8', '9']), none⟩ :=
  normalise_idempotent ['1', '2', '3', '4', '5', '6', '7', '8', '9']
    (by decide) (by decide)

/-- C7: the `LengthMismatch` branch of `normalise_phone_number` is
unreachable: every result is a success, the unsupported-format failure, or
the not-Russian-mobile failure — never the length-mismatch failure (the
three error messages are pairwise distinct strings). -/
theorem normalise_no_length_mismatch (s : List Char) :
    (normalise_phone_number s).ok = true
    ∨ (normalise_phone_number s).error = some errUnsupportedFormat
    ∨ (normalise_phone_number s).error = some errNotRussianMobile := by
  simp only [normalise_phone_number]
  split
  next h =>
    rcases finishNorm_of_length ('7' :: (stripNonDigits s).tail)
        (by simp [List.length_tail, h.1]) with h1 | h1
    · exact Or.inl h1
    · exact Or.inr (Or.inr h1)
  next =>
    split
    next h =>
      rcases finishNorm_of_length (stripNonDigits s) h.1 with h1 | h1
      · exact Or.inl h1
      · exact Or.inr (Or.inr h1)
    next =>
      split
      next h =>
        rcases finishNorm_of_length ('7' :: stripNonDigits s)
            (by simp [h.1]) with h1 | h1
        · exact Or.inl h1
        · exact Or.inr (Or.inr h1)
      next =>
        exact Or.inr (Or.inl rfl)

/-- C8: on an empty record list `fallback_okved` produces no record — the
underlying `min` call fails (Python raises `ValueError`), the pipeline's
fatal no-classification-data condition. -/
theorem fallback_okved_empty : fallback_okved [] = none := rfl

/-- C9: for every raw input whose stripped digits form an 11-character
string starting with `8` whose second character is not `9`, normalisation
fails with the not-Russian-mobile error: the leading `8` is replaced by
`7` but the result does not start with `79`. -/
theorem normalise_from8_not9 (s : List Char) (c : Char) (rest : List Char)
    (h : stripNonDigits s = '8' :: c :: rest) (hlen : rest.length = 9)
    (hc : c ≠ '9') :
    normalise_phone_number s = ⟨false, none, some errNotRussianMobile⟩ := by
  simp [normalise_phone_number, h, hlen, finishNorm, hc]

/-- Witness for C9 at the concrete input `"80001234567"`. -/
theorem normalise_from8_not9_witness :
    normalise_phone_number ['8', '0', '0', '0', '1', '2', '3', '4', '5', '6', '7'] =
      ⟨false, none, some errNotRussianMobile⟩ :=
  normalise_from8_not9 _ '0' ['0', '0', '1', '2', '3', '4', '5', '6', '7']
    (by decide) (by decide) (by decide)

/-- Invariant of the `find_match` scan over a processed prefix `l`: either
no best match is held and every suffix record seen so far has an empty
digit code, or the held best match `m` is a suffix record of positive
length, `best_length` is its length, no seen suffix record is longer, and
every record seen before `m` that is a suffix is strictly shorter. -/
def FMInv (phone : List Char) (l : List OkvedItem)
    (acc : Option OkvedItem × Nat) : Prop :=
  (acc.1 = none ∧ acc.2 = 0
    ∧ ∀ r ∈ l, r.code_digits.isSuffixOf phone = true → r.code_digits.length = 0)
  ∨ ∃ m, acc.1 = some m ∧ acc.2 = m.code_digits.length
      ∧ 0 < m.code_digits.length
      ∧ m.code_digits.isSuffixOf phone = true
      ∧ (∀ r ∈ l, r.code_digits.isSuffixOf phone = true →
          r.code_digits.length ≤ m.code_digits.length)
      ∧ ∃ l1 l2, l = l1 ++ m :: l2
          ∧ ∀ r ∈ l1, r.code_digits.isSuffixOf phone = true →
              r.code_digits.length < m.code_digits.length

/-- Peeling the last loop iteration off of `find_match`. -/
theorem find_match_append (phone : List Char) (l : List OkvedItem)
    (x : OkvedItem) :
    find_match phone (l ++ [x]) = find_step phone (find_match phone l) x := by
  simp [find_match, List.foldl_append]

/-- The `find_match` scan establishes its loop invariant on every input. -/
theorem fm_inv (phone : List Char) (l : List OkvedItem) :
    FMInv phone l (find_match phone l) := by
  induction l using List.reverseRecOn with
  | nil =>
    left
    exact ⟨rfl, rfl, by simp⟩
  | append_singleton l x ih =>
    rw [find_match_append]
    by_cases hs : x.code_digits.isSuffixOf phone = true
    · by_cases hlen : (find_match phone l).2 < x.code_digits.length
      · right
        refine ⟨x, ?_, ?_, ?_, hs, ?_, l, [], rfl, ?_⟩
        · simp [find_step, hs, hlen]
        · simp [find_step, hs, hlen]
        · rcases ih with ⟨-, h2, -⟩ | ⟨m, -, h2, h3, -⟩
          · omega
          · omega
        · intro r hr hrs
          rcases List.mem_append.1 hr with hr | hr
          · rcases ih with ⟨-, h2, h3⟩ | ⟨m, -, h2, -, -, h5, -⟩
            · have := h3 r hr hrs; omega
            · have := h5 r hr hrs; omega
          · simp only [List.mem_singleton] at hr
            subst hr; exact le_refl _
        · intro r hr hrs
          rcases ih with ⟨-, h2, h3⟩ | ⟨m, -, h2, -, -, h5, -⟩
          · have := h3 r hr hrs; omega
          · have := h5 r hr hrs; omega
      · have hstep : find_step phone (find_match phone l) x = find_match phone l := by
          simp [find_step, hs, hlen]
        rw [hstep]
        rcases ih with ⟨h1, h2, h3⟩ | ⟨m, h1, h2, h3, h4, h5, l1, l2, heq, h6⟩
        · left
          refine ⟨h1, h2, ?_⟩
          intro r hr hrs
          rcases List.mem_append.1 hr with hr | hr
          · exact h3 r hr hrs
          · simp only [List.mem_singleton] at hr
            subst hr; omega
        · right
          refine ⟨m, h1, h2, h3, h4, ?_, l1, l2 ++ [x], by rw [heq]; simp, h6⟩
          intro r hr hrs
          rcases List.mem_append.1 hr with hr | hr
          · exact h5 r hr hrs
          · simp only [List.mem_singleton] at hr
            subst hr; omega
    · have hstep : find_step phone (find_match phone l) x = find_match phone l := by
        simp [find_step, hs]
      rw [hstep]
      rcases ih with ⟨h1, h2, h3⟩ | ⟨m, h1, h2, h3, h4, h5, l1, l2, heq, h6⟩
      · left
        refine ⟨h1, h2, ?_⟩
        intro r hr hrs
        rcases List.mem_append.1 hr with hr | hr
        · exact h3 r hr hrs
        · simp only [List.mem_singleton] at hr
          subst hr; exact absurd hrs hs
      · right
        refine ⟨m, h1, h2, h3, h4, ?_, l1, l2 ++ [x], by rw [heq]; simp, h6⟩
        intro r hr hrs
        rcases List.mem_append.1 hr with hr | hr
        · exact h5 r hr hrs
        · simp only [List.mem_singleton] at hr
          subst hr; exact absurd hrs hs

/-- C2: whenever `find_match` returns a record, the phone digit string
ends with that record's digit code, the returned length is that record's
digit length, no record in the list whose digit code is a suffix of the
phone digits is strictly longer, and the returned record is the first-seen
among those attaining the maximal suffix length (every earlier suffix
record is strictly shorter). -/
theorem find_match_spec (phone : List Char) (okved_items : List OkvedItem)
    (m : OkvedItem) (h : (find_match phone okved_items).1 = some m) :
    m.code_digits.isSuffixOf phone = true
    ∧ (find_match phone okved_items).2 = m.code_digits.length
    ∧ (∀ r ∈ okved_items, r.code_digits.isSuffixOf phone = true →
        r.code_digits.length ≤ m.code_digits.length)
    ∧ ∃ l1 l2, okved_items = l1 ++ m :: l2
        ∧ ∀ r ∈ l1, r.code_digits.isSuffixOf phone = true →
            r.code_digits.length < m.code_digits.length := by
  rcases fm_inv phone okved_items with ⟨h1, -, -⟩ | ⟨m', h1, h2, -, h4, h5, hsplit⟩
  · rw [h1] at h; exact Option.noConfusion h
  · rw [h1] at h
    have hm : m' = m := Option.some.inj h
    subst hm
    exact ⟨h4, h2, h5, hsplit⟩

/-- Witness for C2: on phone digits `79991234567` with records `67` and
`567`, the longer suffix `567` wins and the returned length is 3. -/
theorem find_match_spec_witness :
    (find_match ['7', '9', '9', '9', '1', '2', '3', '4', '5', '6', '7']
      [⟨['6', '7'], ['a'], ['6', '7']⟩, ⟨['5', '6', '7'], ['b'], ['5', '6', '7']⟩]).2 =
      (⟨['5', '6', '7'], ['b'], ['5', '6', '7']⟩ : OkvedItem).code_digits.length :=
  (find_match_spec ['7', '9', '9', '9', '1', '2', '3', '4', '5', '6', '7']
    [⟨['6', '7'], ['a'], ['6', '7']⟩, ⟨['5', '6', '7'], ['b'], ['5', '6', '7']⟩]
    ⟨['5', '6', '7'], ['b'], ['5', '6', '7']⟩ (by decide)).2.1

/-- C5: when every record's digit code is non-empty, `find_match` returns
length 0 exactly when no record's digit code is a suffix of the phone
digit string. -/
theorem find_match_zero_iff (phone : List Char) (okved_items : List OkvedItem)
    (hne : ∀ r ∈ okved_items, r.code_digits ≠ []) :
    (find_match phone okved_items).2 = 0 ↔
      ∀ r ∈ okved_items, r.code_digits.isSuffixOf phone = false := by
  constructor
  · intro h0 r hr
    rcases fm_inv phone okved_items with ⟨-, -, h3⟩ | ⟨m, -, h2, h3, -⟩
    · cases hb : r.code_digits.isSuffixOf phone
      · rfl
      · have := h3 r hr hb
        exact absurd (List.length_eq_zero.1 this) (hne r hr)
    · exfalso; omega
  · intro hnone
    rcases fm_inv phone okved_items with ⟨-, h2, -⟩ | ⟨m, -, -, -, h4, -, l1, l2, heq, -⟩
    · exact h2
    · have hm : m ∈ okved_items := by rw [heq]; simp
      have := hnone m hm
      rw [h4] at this
      exact Bool.noConfusion this

/-- Witness for C5: with the single non-suffix record `00` on phone digits
`79`, the returned match length is 0. -/
theorem find_match_zero_iff_witness :
    (find_match ['7', '9'] [⟨['0', '0'], ['a'], ['0', '0']⟩]).2 = 0 :=
  (find_match_zero_iff ['7', '9'] [⟨['0', '0'], ['a'], ['0', '0']⟩]
    (by decide)).2 (by decide)

/-- C10: `find_match` returns a record exactly when the returned match
length is at least 1 — even when some record's digit code is the empty
string, which is a suffix of every phone digit string — and a returned
record never has an empty digit code. -/
theorem find_match_some_iff (phone : List Char) (okved_items : List OkvedItem) :
    ((∃ m, (find_match phone okved_items).1 = some m) ↔
      1 ≤ (find_match phone okved_items).2)
    ∧ ∀ m, (find_match phone okved_items).1 = some m → m.code_digits ≠ [] := by
  rcases fm_inv phone okved_items with ⟨h1, h2, -⟩ | ⟨m, h1, h2, h3, -⟩
  · refine ⟨⟨?_, ?_⟩, ?_⟩
    · rintro ⟨m, hm⟩
      rw [h1] at hm
      exact Option.noConfusion hm
    · intro hlen; exfalso; omega
    · intro m hm
      rw [h1] at hm
      exact Option.noConfusion hm
  · refine ⟨⟨?_, ?_⟩, ?_⟩
    · intro _; omega
    · intro _; exact ⟨m, h1⟩
    · intro m' hm'
      rw [h1] at hm'
      have hm : m = m' := Option.some.inj hm'
      subst hm
      intro hnil
      rw [hnil] at h3
      exact absurd h3 (by simp)

/-- Witness for C10: a list whose first record has empty digits and whose
second is a genuine suffix yields a positive match length, and the
returned record's digit code is non-empty. -/
theorem find_match_some_iff_witness :
    1 ≤ (find_match ['7', '9', '6', '7']
      [⟨['z'], ['z'], []⟩, ⟨['6', '7'], ['n'], ['6', '7']⟩]).2
    ∧ (⟨['6', '7'], ['n'], ['6', '7']⟩ : OkvedItem).code_digits ≠ [] :=
  ⟨(find_match_some_iff ['7', '9', '6', '7']
      [⟨['z'], ['z'], []⟩, ⟨['6', '7'], ['n'], ['6', '7']⟩]).1.mp
      ⟨⟨['6', '7'], ['n'], ['6', '7']⟩, by decide⟩,
   (find_match_some_iff ['7', '9', '6', '7']
      [⟨['z'], ['z'], []⟩, ⟨['6', '7'], ['n'], ['6', '7']⟩]).2
      ⟨['6', '7'], ['n'], ['6', '7']⟩ (by decide)⟩

/-- The running-minimum scan of `fallback_okved` yields an element of the
scanned list of globally minimal digit length, and every element placed
before it in the list has strictly greater digit length (Python's `min`
keeps the incumbent on ties). -/
theorem foldl_min_step_spec (xs : List OkvedItem) : ∀ x : OkvedItem,
    (∀ r ∈ x :: xs, (xs.foldl min_step x).code_digits.length ≤ r.code_digits.length)
    ∧ ∃ l1 l2, x :: xs = l1 ++ (xs.foldl min_step x) :: l2
        ∧ ∀ r ∈ l1, (xs.foldl min_step x).code_digits.length < r.code_digits.length := by
  induction xs with
  | nil =>
    intro x
    refine ⟨?_, [], [], rfl, by simp⟩
    intro r hr
    simp only [List.mem_singleton] at hr
    subst hr; exact le_refl _
  | cons y ys ih =>
    intro x
    rw [List.foldl_cons]
    by_cases hlt : y.code_digits.length < x.code_digits.length
    · have hstep : min_step x y = y := by simp [min_step, hlt]
      rw [hstep]
      obtain ⟨hmin, l1, l2, heq, hstrict⟩ := ih y
      have hfy := hmin y (List.mem_cons_self _ _)
      refine ⟨?_, x :: l1, l2, ?_, ?_⟩
      · intro r hr
        rcases List.mem_cons.1 hr with hr | hr
        · subst hr; omega
        · exact hmin r hr
      · rw [List.cons_append, ← heq]
      · intro r hr
        rcases List.mem_cons.1 hr with hr | hr
        · subst hr; omega
        · exact hstrict r hr
    · have hstep : min_step x y = x := by simp [min_step, hlt]
      rw [hstep]
      obtain ⟨hmin, l1, l2, heq, hstrict⟩ := ih x
      have hfx := hmin x (List.mem_cons_self _ _)
      refine ⟨?_, ?_⟩
      · intro r hr
        rcases List.mem_cons.1 hr with hr | hr
        · subst hr; exact hfx
        rcases List.mem_cons.1 hr with hr | hr
        · subst hr; omega
        · exact hmin r (List.mem_cons_of_mem _ hr)
      · cases l1 with
        | nil =>
          rw [List.nil_append] at heq
          injection heq with hx hys
          refine ⟨[], y :: ys, ?_, by simp⟩
          rw [List.nil_append, ← hx]
        | cons a l1t =>
          rw [List.cons_append] at heq
          injection heq with hx hys
          have hax := hstrict a (List.mem_cons_self _ _)
          refine ⟨x :: y :: l1t, l2, ?_, ?_⟩
          · rw [List.cons_append, List.cons_append, ← hys]
          · intro r hr
            rcases List.mem_cons.1 hr with hr | hr
            · subst hr; rw [← hx] at hax; exact hax
            rcases List.mem_cons.1 hr with hr | hr
            · subst hr; rw [← hx] at hax; omega
            · exact hstrict r (List.mem_cons_of_mem _ hr)

/-- C3: on a non-empty record list `fallback_okved` returns a record of
globally shortest digit code; on ties the first such record in input
order is returned (every record before the chosen one is strictly
longer). -/
theorem fallback_okved_spec (okved_items : List OkvedItem) (h : okved_items ≠ []) :
    ∃ m, fallback_okved okved_items = some m
      ∧ (∀ r ∈ okved_items, m.code_digits.length ≤ r.code_digits.length)
      ∧ ∃ l1 l2, okved_items = l1 ++ m :: l2
          ∧ ∀ r ∈ l1, m.code_digits.length < r.code_digits.length := by
  cases okved_items with
  | nil => exact absurd rfl h
  | cons x xs =>
    obtain ⟨hmin, hsplit⟩ := foldl_min_step_spec xs x
    exact ⟨xs.foldl min_step x, rfl, hmin, hsplit⟩

/-- Witness for C3: on a two-record list the shorter second record is
selected by the fallback. -/
theorem fallback_okved_spec_witness :
    (fallback_okved [⟨['1', '2'], ['a'], ['1', '2']⟩, ⟨['3'], ['b'], ['3']⟩]).isSome = true := by
  obtain ⟨m, hm, -⟩ :=
    fallback_okved_spec [⟨['1', '2'], ['a'], ['1', '2']⟩, ⟨['3'], ['b'], ['3']⟩]
      (by decide)
  rw [hm]; rfl

mutual

/-- The records appended by `walk` are exactly the spec's per-node
emission rule applied to the pre-order listing of the subtree. -/
theorem walk_eq_preorder (t : TreeNode) :
    walk t = (preorder t).flatMap record_of_node := by
  cases t with
  | mk code name items =>
    rw [walk, preorder, List.flatMap_cons, walkList_eq_preorder items]
    congr 1
    cases code with
    | none => rfl
    | some c =>
      cases name with
      | none => simp [truthy, record_of_node, TreeNode.code, TreeNode.name]
      | some n =>
        by_cases hc : c = []
        · subst hc
          simp [truthy, record_of_node, TreeNode.code, TreeNode.name]
        · by_cases hn : n = []
          · subst hn
            simp [truthy, record_of_node, TreeNode.code, TreeNode.name]
          · by_cases hd : stripNonDigits c = []
            · simp [truthy, record_of_node, TreeNode.code, TreeNode.name,
                List.isEmpty_iff, hc, hn, hd]
            · simp [truthy, record_of_node, TreeNode.code, TreeNode.name,
                List.isEmpty_iff, hc, hn, hd]

/-- Forest version of `walk_eq_preorder`. -/
theorem walkList_eq_preorder (l : List TreeNode) :
    walkList l = (preorderForest l).flatMap record_of_node := by
  cases l with
  | nil => rfl
  | cons t ts =>
    rw [walkList, preorderForest, List.flatMap_append,
      walk_eq_preorder t, walkList_eq_preorder ts]

end

/-- C4: `parse_json` is the pre-order depth-first traversal of the forest
with the spec's per-node emission rule: each visited node with non-empty
`code`, non-empty `name` and at least one digit in `code` contributes the
single record `(code, name, code stripped of non-digits)` at its pre-order
position, and every other node contributes nothing while its children are
still visited. -/
theorem parse_json_preorder (data : List TreeNode) :
    parse_json data = (preorderForest data).flatMap record_of_node :=
  walkList_eq_preorder data
